import Mathlib

/-!
Verification of the s21 Matrix library (3DViewer project, `src/libs/s21_matrix_oop.h`).

The repository ships only the class declaration; every method body is modelled
here from the specification (spec.md §3–§4.5).  Double-precision values are
modelled as exact rationals (ℚ), the idealisation described by the algorithm
text of the spec; the comparison tolerance `1e-7` is the rational `1 / 10^7`.
A matrix is its extents together with a total entry function; entries outside
`[0, rows) × [0, cols)` are irrelevant junk that no operation depends on.
-/

namespace S21

/-- Modelled from the spec: the error taxonomy of §7 (kinds, not exception
types): InvalidShape, ShapeMismatch, NotSquare, SingularMatrix,
IndexOutOfRange. -/
inductive MatrixError where
  | InvalidShape
  | ShapeMismatch
  | NotSquare
  | SingularMatrix
  | IndexOutOfRange
deriving DecidableEq, Repr

/-- Modelled from the spec: the sole entity of §3 — `rows > 0`, `cols > 0`
and a buffer of `rows * cols` doubles, modelled as a total entry function
read only inside the extents. -/
structure Matrix where
  rows : ℕ
  cols : ℕ
  entry : ℕ → ℕ → ℚ

/-- Modelled from the spec: comparison tolerance `1e-7` used by `Equals`. -/
def tol : ℚ := 1 / 10 ^ 7

/-- Modelled from the spec: the absolute value (`fabs` from `<cmath>`) used
by the tolerance comparison and the partial-pivoting magnitude test. -/
def qabs (x : ℚ) : ℚ := if x < 0 then -x else x

/-- Builds a matrix from a rectangular list of rows (test harness helper,
not a method of the class). -/
def ofLists (l : List (List ℚ)) : Matrix where
  rows := l.length
  cols := (l.headD []).length
  entry := fun i j => ((l.getD i []).getD j 0)

/-- Reads a matrix back as its list of rows, each row the list of its
in-range entries (test harness helper, not a method of the class). -/
def toLists (A : Matrix) : List (List ℚ) :=
  (List.range A.rows).map fun i => (List.range A.cols).map fun j => A.entry i j

/-- Modelled from the spec: `ElementAt` / `operator()` — the reference design
performs no bounds check and returns whatever the buffer holds. -/
def ElementAt (A : Matrix) (i j : ℕ) : ℚ := A.entry i j

/-- Modelled from the spec: `Equals` (`EqMatrix` / `operator==`) — false
immediately if shapes differ, otherwise every element pair must satisfy
`|a[i][j] - b[i][j]| < 1e-7`; never throws. -/
def EqMatrix (A B : Matrix) : Bool :=
  if A.rows = B.rows ∧ A.cols = B.cols then
    (List.range A.rows).all fun i =>
      (List.range A.cols).all fun j =>
        decide (qabs (A.entry i j - B.entry i j) < tol)
  else false

/-- Modelled from the spec: `SumMatrix` (§4.2 `Add`, in-place form §6) —
validates shape first, then mutates the receiver only after validation
passes.  The pair is (reported error, receiver state after the call). -/
def SumMatrix (A B : Matrix) : Option MatrixError × Matrix :=
  if A.rows = B.rows ∧ A.cols = B.cols then
    (none, ⟨A.rows, A.cols, fun i j => A.entry i j + B.entry i j⟩)
  else (some MatrixError.ShapeMismatch, A)

/-- Modelled from the spec: `SubMatrix` (§4.2 `Subtract`, in-place form §6). -/
def SubMatrix (A B : Matrix) : Option MatrixError × Matrix :=
  if A.rows = B.rows ∧ A.cols = B.cols then
    (none, ⟨A.rows, A.cols, fun i j => A.entry i j - B.entry i j⟩)
  else (some MatrixError.ShapeMismatch, A)

/-- Modelled from the spec: `operator+=` — the compound-assignment
equivalent of `SumMatrix` (§6: identical preconditions and mutation). -/
def opAddAssign (A B : Matrix) : Option MatrixError × Matrix := SumMatrix A B

/-- Modelled from the spec: `ScaleBy` / `MulNumber` — multiplies every
element by a scalar; always succeeds. -/
def ScaleBy (A : Matrix) (k : ℚ) : Matrix :=
  ⟨A.rows, A.cols, fun i j => A.entry i j * k⟩

/-- Modelled from the spec: `MultiplyMatrices` (`MulMatrix`) — requires
`a.cols == b.rows`, result shape `a.rows × b.cols`, standard triple-loop
accumulation. -/
def MulMatrix (A B : Matrix) : Except MatrixError Matrix :=
  if A.cols = B.rows then
    Except.ok ⟨A.rows, B.cols, fun i j =>
      ((List.range A.cols).map fun t => A.entry i t * B.entry t j).sum⟩
  else Except.error MatrixError.ShapeMismatch

/-- Modelled from the spec: `Transpose` — a new `cols × rows` matrix with
`result[j][i] = a[i][j]`. -/
def Transpose (A : Matrix) : Matrix :=
  ⟨A.cols, A.rows, fun i j => A.entry j i⟩

/-- Modelled from the spec: `Minor` (`CreateMinor`) — the matrix with row
`rowI` and column `colJ` removed, remaining rows and columns keeping their
relative order. -/
def CreateMinor (A : Matrix) (rowI colJ : ℕ) : Matrix :=
  ⟨A.rows - 1, A.cols - 1, fun r c =>
    A.entry (if r < rowI then r else r + 1) (if c < colJ then c else c + 1)⟩

/-- Modelled from the spec: the partial-pivoting scan over a list of
candidate row indices, keeping the row whose entry in column `k` has the
strictly largest absolute value seen so far. -/
def pivotAux (W : ℕ → ℕ → ℚ) (k : ℕ) : List ℕ → ℕ → ℕ
  | [], best => best
  | i :: rest, best =>
      pivotAux W k rest (if qabs (W best k) < qabs (W i k) then i else best)

/-- Modelled from the spec: the row-rearrangement step (`RawRearrange`) pivot
search — scan rows `k..n-1` in column `k` and select the row with the
largest absolute value. -/
def pivotRow (W : ℕ → ℕ → ℚ) (n k : ℕ) : ℕ :=
  pivotAux W k (List.range' (k + 1) (n - (k + 1))) k

/-- Modelled from the spec: swapping two rows of the working copy. -/
def rowSwap (W : ℕ → ℕ → ℚ) (r s : ℕ) : ℕ → ℕ → ℚ :=
  fun i j => if i = r then W s j else if i = s then W r j else W i j

/-- Modelled from the spec: elimination below the pivot — for each row
`r > k` (within the working `n × n` region) subtract
`W[r][k] / W[k][k]` times row `k` from row `r`. -/
def eliminate (W : ℕ → ℕ → ℚ) (n k : ℕ) : ℕ → ℕ → ℚ :=
  fun i j => if k < i ∧ i < n then W i j - W i k / W k k * W k j else W i j

/-- Modelled from the spec: the Gaussian-elimination main loop of §4.4 over
pivot columns `k, k+1, …, n-1`: rearrange rows (flipping the running sign on
a real swap), short-circuit to 0 on a zero pivot, eliminate below the pivot,
and finish with `sign * Π diagonal`.  The first numeric argument counts the
remaining pivot columns (`n - k`), making the recursion structural. -/
def detLoop (n : ℕ) : ℕ → ℕ → (ℕ → ℕ → ℚ) → ℚ → ℚ
  | 0, _, W, sign => sign * ((List.range n).map fun i => W i i).prod
  | fuel + 1, k, W, sign =>
      if rowSwap W k (pivotRow W n k) k k = 0 then 0
      else
        detLoop n fuel (k + 1) (eliminate (rowSwap W k (pivotRow W n k)) n k)
          (if pivotRow W n k = k then sign else -sign)

/-- Modelled from the spec: `Determinant` — requires a square receiver
(`NotSquare` otherwise) and runs the §4.4 engine on a working copy of the
entries, over all `rows` pivot columns starting at column 0 with sign +1. -/
def Determinant (A : Matrix) : Except MatrixError ℚ :=
  if A.rows = A.cols then Except.ok (detLoop A.rows A.rows 0 A.entry 1)
  else Except.error MatrixError.NotSquare

/-- Modelled from the spec: the state of a `Determinant()` method call — the
receiver (`this`), the disposable working copy, and the running sign. -/
structure DetState where
  recv : Matrix
  work : ℕ → ℕ → ℚ
  sgn : ℚ

/-- Modelled from the spec: the §4.4 loop threading the whole method state,
making explicit that elimination touches only the working copy and the sign,
never the receiver. -/
def detLoopSt (n : ℕ) : ℕ → ℕ → DetState → ℚ × DetState
  | 0, _, s => (s.sgn * ((List.range n).map fun i => s.work i i).prod, s)
  | fuel + 1, k, s =>
      if rowSwap s.work k (pivotRow s.work n k) k k = 0 then
        (0, ⟨s.recv, rowSwap s.work k (pivotRow s.work n k),
             if pivotRow s.work n k = k then s.sgn else -s.sgn⟩)
      else
        detLoopSt n fuel (k + 1)
          ⟨s.recv, eliminate (rowSwap s.work k (pivotRow s.work n k)) n k,
           if pivotRow s.work n k = k then s.sgn else -s.sgn⟩

/-- Modelled from the spec: the `Determinant()` method as a state
transformer — the returned matrix is the receiver as the call leaves it;
the working copy is initialised from the receiver and discarded. -/
def DeterminantM (A : Matrix) : Except MatrixError ℚ × Matrix :=
  if A.rows = A.cols then
    ((Except.ok (detLoopSt A.rows A.rows 0 ⟨A, A.entry, 1⟩).1),
     (detLoopSt A.rows A.rows 0 ⟨A, A.entry, 1⟩).2.recv)
  else (Except.error MatrixError.NotSquare, A)

/-- Modelled from the spec: `CalcComplements` (§4.5) — requires a square
receiver with `rows ≥ 2`; each cell is `(-1)^(i+j)` times the determinant
of the corresponding minor. -/
def CalcComplements (A : Matrix) : Except MatrixError Matrix :=
  if A.rows = A.cols ∧ 2 ≤ A.rows then
    Except.ok ⟨A.rows, A.cols, fun i j =>
      match Determinant (CreateMinor A i j) with
      | Except.ok d => (-1 : ℚ) ^ (i + j) * d
      | Except.error _ => 0⟩
  else Except.error MatrixError.InvalidShape

/-- Modelled from the spec: `InverseMatrix` (§4.5) — square check, then
`d = Determinant`, failing with `SingularMatrix` on `d == 0`, then the
transposed cofactor matrix (the adjugate) scaled by `1/d`. -/
def InverseMatrix (A : Matrix) : Except MatrixError Matrix :=
  if A.rows = A.cols then
    match Determinant A with
    | Except.ok d =>
        if d = 0 then Except.error MatrixError.SingularMatrix
        else
          match CalcComplements A with
          | Except.ok C => Except.ok (ScaleBy (Transpose C) (1 / d))
          | Except.error e => Except.error e
    | Except.error e => Except.error e
  else Except.error MatrixError.NotSquare

/-- The `n × n` identity matrix, the reference value `I_n` of §8. -/
def identity (n : ℕ) : Matrix :=
  ⟨n, n, fun i j => if i = j then 1 else 0⟩

end S21

/-- The mathematical `n × n` matrix read off an entry function. -/
def matOf (W : ℕ → ℕ → ℚ) (n : ℕ) : Matrix (Fin n) (Fin n) ℚ :=
  Matrix.of fun i j : Fin n => W i.val j.val

/-- The mathematical square matrix read off an `S21.Matrix`. -/
def toMat (A : S21.Matrix) (n : ℕ) : Matrix (Fin n) (Fin n) ℚ :=
  matOf A.entry n

lemma qabs_eq_abs (x : ℚ) : S21.qabs x = |x| := by
  unfold S21.qabs
  rcases lt_or_le x 0 with h | h
  · rw [if_pos h, abs_of_neg h]
  · rw [if_neg (not_lt.mpr h), abs_of_nonneg h]

lemma list_prod_range (f : ℕ → ℚ) : ∀ n, ((List.range n).map f).prod = ∏ i ∈ Finset.range n, f i := by
  intro n
  induction n with
  | zero => simp
  | succ m ih =>
      rw [List.range_succ, Finset.prod_range_succ, List.map_append, List.prod_append, ih]
      simp

lemma list_sum_range (f : ℕ → ℚ) : ∀ n, ((List.range n).map f).sum = ∑ i ∈ Finset.range n, f i := by
  intro n
  induction n with
  | zero => simp
  | succ m ih =>
      rw [List.range_succ, Finset.sum_range_succ, List.map_append, List.sum_append, ih]
      simp

lemma pivotAux_spec (W : ℕ → ℕ → ℚ) (k : ℕ) :
    ∀ (l : List ℕ) (best : ℕ),
      (S21.pivotAux W k l best = best ∨ S21.pivotAux W k l best ∈ l) ∧
      S21.qabs (W best k) ≤ S21.qabs (W (S21.pivotAux W k l best) k) ∧
      ∀ i ∈ l, S21.qabs (W i k) ≤ S21.qabs (W (S21.pivotAux W k l best) k) := by
  intro l
  induction l with
  | nil =>
      intro best
      exact ⟨Or.inl rfl, le_refl _, by intro i hi; simp at hi⟩
  | cons a rest ih =>
      intro best
      obtain ⟨hmem, hle, hall⟩ := ih (if S21.qabs (W best k) < S21.qabs (W a k) then a else best)
      have hstep : S21.pivotAux W k (a :: rest) best =
          S21.pivotAux W k rest (if S21.qabs (W best k) < S21.qabs (W a k) then a else best) := rfl
      rw [hstep]
      refine ⟨?_, ?_, ?_⟩
      · rcases hmem with h | h
        · rw [h]
          by_cases hc : S21.qabs (W best k) < S21.qabs (W a k)
          · rw [if_pos hc]; exact Or.inr (List.mem_cons_self a rest)
          · rw [if_neg hc]; exact Or.inl rfl
        · exact Or.inr (List.mem_cons_of_mem a h)
      · refine le_trans ?_ hle
        by_cases hc : S21.qabs (W best k) < S21.qabs (W a k)
        · rw [if_pos hc]; exact le_of_lt hc
        · rw [if_neg hc]
      · intro i hi
        rcases List.mem_cons.mp hi with h | h
        · subst h
          refine le_trans ?_ hle
          by_cases hc : S21.qabs (W best k) < S21.qabs (W i k)
          · rw [if_pos hc]
          · rw [if_neg hc]; exact not_lt.mp hc
        · exact hall i h

lemma pivotRow_spec (W : ℕ → ℕ → ℚ) (n k : ℕ) (hk : k < n) :
    k ≤ S21.pivotRow W n k ∧ S21.pivotRow W n k < n ∧
      ∀ i, k ≤ i → i < n → S21.qabs (W i k) ≤ S21.qabs (W (S21.pivotRow W n k) k) := by
  obtain ⟨hmem, hle, hall⟩ := pivotAux_spec W k (List.range' (k + 1) (n - (k + 1))) k
  have hbound : k ≤ S21.pivotRow W n k ∧ S21.pivotRow W n k < n := by
    unfold S21.pivotRow
    rcases hmem with h | h
    · rw [h]; exact ⟨le_refl k, hk⟩
    · have := List.mem_range'_1.mp h
      omega
  refine ⟨hbound.1, hbound.2, ?_⟩
  intro i hki hin
  rcases Nat.eq_or_lt_of_le hki with h | h
  · subst h; exact hle
  · exact hall i (List.mem_range'_1.mpr ⟨by omega, by omega⟩)

lemma rowSwap_self (W : ℕ → ℕ → ℚ) (k : ℕ) : S21.rowSwap W k k = W := by
  funext i j
  unfold S21.rowSwap
  split_ifs with h
  · rw [h]
  · rfl

lemma rowSwap_inv (W : ℕ → ℕ → ℚ) (n k p : ℕ) (hkp : k ≤ p) (hpn : p < n)
    (hinv : ∀ j, j < k → ∀ i, j < i → i < n → W i j = 0) :
    ∀ j, j < k → ∀ i, j < i → i < n → S21.rowSwap W k p i j = 0 := by
  intro j hj i hi hin
  unfold S21.rowSwap
  split_ifs with h1 h2
  · exact hinv j hj p (by omega) hpn
  · exact hinv j hj k hj (by omega)
  · exact hinv j hj i hi hin

lemma eliminate_inv (W1 : ℕ → ℕ → ℚ) (n k : ℕ) (hk : k < n) (hz : W1 k k ≠ 0)
    (hinv : ∀ j, j < k → ∀ i, j < i → i < n → W1 i j = 0) :
    ∀ j, j < k + 1 → ∀ i, j < i → i < n → S21.eliminate W1 n k i j = 0 := by
  intro j hj i hi hin
  unfold S21.eliminate
  by_cases hcase : k < i ∧ i < n
  · rw [if_pos hcase]
    rcases Nat.lt_or_ge j k with hjk | hjk
    · rw [hinv j hjk i hi hin, hinv j hjk k hjk hk]
      ring
    · have hjeq : j = k := by omega
      subst hjeq
      rw [div_mul_cancel₀ _ hz]
      ring
  · rw [if_neg hcase]
    exact hinv j (by omega) i hi hin

lemma matOf_rowSwap_det (W : ℕ → ℕ → ℚ) (n k p : ℕ) (hk : k < n) (hp : p < n) (hne : k ≠ p) :
    (matOf (S21.rowSwap W k p) n).det = -(matOf W n).det := by
  have hmat : matOf (S21.rowSwap W k p) n =
      (matOf W n).submatrix (Equiv.swap ⟨k, hk⟩ ⟨p, hp⟩) id := by
    ext i j
    simp only [matOf, Matrix.of_apply, Matrix.submatrix_apply, id_eq, S21.rowSwap]
    by_cases h1 : (i : ℕ) = k
    · have hik : i = ⟨k, hk⟩ := Fin.ext h1
      subst hik
      rw [if_pos rfl, Equiv.swap_apply_left]
    · have hne1 : i ≠ ⟨k, hk⟩ := by intro hcon; exact h1 (congrArg Fin.val hcon)
      rw [if_neg h1]
      by_cases h2 : (i : ℕ) = p
      · have hip : i = ⟨p, hp⟩ := Fin.ext h2
        subst hip
        rw [if_pos rfl, Equiv.swap_apply_right]
      · have hne2 : i ≠ ⟨p, hp⟩ := by intro hcon; exact h2 (congrArg Fin.val hcon)
        rw [if_neg h2, Equiv.swap_apply_of_ne_of_ne hne1 hne2]
  rw [hmat, Matrix.det_permute]
  have hswap : Equiv.Perm.sign (Equiv.swap (⟨k, hk⟩ : Fin n) ⟨p, hp⟩) = -1 :=
    Equiv.Perm.sign_swap (by intro hcon; exact hne (congrArg Fin.val hcon))
  rw [hswap]
  push_cast
  ring

lemma matOf_eliminate_det (W : ℕ → ℕ → ℚ) (n k : ℕ) (hk : k < n) :
    (matOf (S21.eliminate W n k) n).det = (matOf W n).det := by
  apply Matrix.det_eq_of_forall_row_eq_smul_add_const
    (fun i : Fin n => if k < (i : ℕ) then -(W i k / W k k) else 0) ⟨k, hk⟩
  · simp
  · intro i j
    simp only [matOf, Matrix.of_apply, S21.eliminate]
    by_cases h : k < (i : ℕ)
    · rw [if_pos ⟨h, i.isLt⟩, if_pos h]
      ring
    · rw [if_neg (by intro hcon; exact h hcon.1), if_neg h]
      ring

lemma det_eq_zero_of_block (n : ℕ) (M : Matrix (Fin n) (Fin n) ℚ) (k : ℕ) (hk : k < n)
    (h : ∀ i j : Fin n, (j : ℕ) ≤ k → k ≤ (i : ℕ) → M i j = 0) : M.det = 0 := by
  rw [Matrix.det_apply]
  apply Finset.sum_eq_zero
  intro σ _
  have hex : ∃ i : Fin n, M (σ i) i = 0 := by
    by_contra hcon
    push_neg at hcon
    have hsub : ∀ i ∈ Finset.Iic (⟨k, hk⟩ : Fin n), σ i ∈ Finset.Iio (⟨k, hk⟩ : Fin n) := by
      intro i hi
      rw [Finset.mem_Iic] at hi
      rw [Finset.mem_Iio]
      by_contra hlt
      push_neg at hlt
      exact hcon i (h (σ i) i hi hlt)
    have hcard := Finset.card_le_card_of_injOn σ hsub (Function.Injective.injOn σ.injective)
    rw [Fin.card_Iic, Fin.card_Iio] at hcard
    omega
  obtain ⟨i, hi⟩ := hex
  have hz : (∏ x : Fin n, M (σ x) x) = 0 := Finset.prod_eq_zero (Finset.mem_univ i) hi
  rw [hz, smul_zero]

lemma det_of_tri (n : ℕ) (M : Matrix (Fin n) (Fin n) ℚ)
    (h : ∀ i j : Fin n, (j : ℕ) < (i : ℕ) → M i j = 0) :
    M.det = ∏ i, M i i :=
  Matrix.det_of_upperTriangular (by intro i j hij; exact h i j hij)

lemma detLoop_eq_det (n : ℕ) :
    ∀ (fuel k : ℕ) (W : ℕ → ℕ → ℚ) (s : ℚ), k + fuel = n →
      (∀ j, j < k → ∀ i, j < i → i < n → W i j = 0) →
      S21.detLoop n fuel k W s = s * (matOf W n).det := by
  intro fuel
  induction fuel with
  | zero =>
      intro k W s hkn hinv
      show s * ((List.range n).map fun i => W i i).prod = s * (matOf W n).det
      rw [list_prod_range]
      rw [det_of_tri n (matOf W n)
        (by
          intro i j hij
          exact hinv j (by omega) i hij i.isLt)]
      simp only [matOf, Matrix.of_apply]
      rw [Fin.prod_univ_eq_prod_range (fun i => W i i) n]
  | succ fuel ih =>
      intro k W s hkn hinv
      have hkltn : k < n := by omega
      obtain ⟨hkp, hpn, hmax⟩ := pivotRow_spec W n k hkltn
      show (if S21.rowSwap W k (S21.pivotRow W n k) k k = 0 then 0
        else S21.detLoop n fuel (k + 1)
          (S21.eliminate (S21.rowSwap W k (S21.pivotRow W n k)) n k)
          (if S21.pivotRow W n k = k then s else -s)) = s * (matOf W n).det
      have hW1kk : S21.rowSwap W k (S21.pivotRow W n k) k k = W (S21.pivotRow W n k) k := by
        unfold S21.rowSwap
        rw [if_pos rfl]
      have hswapinv := rowSwap_inv W n k (S21.pivotRow W n k) hkp hpn hinv
      by_cases hz : S21.rowSwap W k (S21.pivotRow W n k) k k = 0
      · rw [if_pos hz]
        have hpk0 : W (S21.pivotRow W n k) k = 0 := by rw [← hW1kk]; exact hz
        have hcol : ∀ i, k ≤ i → i < n → W i k = 0 := by
          intro i hki hin
          have hle := hmax i hki hin
          rw [hpk0] at hle
          have habs := qabs_eq_abs (W i k)
          rw [habs] at hle
          simp only [qabs_eq_abs, abs_zero] at hle
          exact abs_eq_zero.mp (le_antisymm hle (abs_nonneg _))
        have hdet1 : (matOf (S21.rowSwap W k (S21.pivotRow W n k)) n).det = 0 := by
          apply det_eq_zero_of_block n _ k hkltn
          intro i j hj hi
          simp only [matOf, Matrix.of_apply]
          rcases Nat.lt_or_ge (j : ℕ) k with hjk | hjk
          · exact hswapinv j hjk i (by omega) i.isLt
          · have hjek : (j : ℕ) = k := by omega
            unfold S21.rowSwap
            split_ifs with h1 h2
            · rw [hjek]; exact hpk0
            · rw [hjek]; exact hcol k (le_refl k) hkltn
            · rw [hjek]; exact hcol i hi i.isLt
        rcases eq_or_ne (S21.pivotRow W n k) k with hpk | hpk
        · rw [hpk, rowSwap_self] at hdet1
          rw [hdet1, mul_zero]
        · have := matOf_rowSwap_det W n k (S21.pivotRow W n k) hkltn hpn (Ne.symm hpk)
          rw [this] at hdet1
          have : (matOf W n).det = 0 := by linarith [hdet1]
          rw [this, mul_zero]
      · rw [if_neg hz]
        have helim := eliminate_inv (S21.rowSwap W k (S21.pivotRow W n k)) n k hkltn hz hswapinv
        rw [ih (k + 1) _ _ (by omega) helim]
        rw [matOf_eliminate_det _ n k hkltn]
        rcases eq_or_ne (S21.pivotRow W n k) k with hpk | hpk
        · rw [if_pos hpk, hpk, rowSwap_self]
        · rw [if_neg hpk, matOf_rowSwap_det W n k (S21.pivotRow W n k) hkltn hpn (Ne.symm hpk)]
          ring

lemma determinant_ok (A : S21.Matrix) (n : ℕ)
    (hr : A.rows = n) (hc : A.cols = n) :
    S21.Determinant A = Except.ok ((toMat A n).det) := by
  unfold S21.Determinant
  rw [hr, hc, if_pos rfl]
  congr 1
  rw [detLoop_eq_det n n 0 A.entry 1 (by omega)
    (fun j hj => absurd hj (Nat.not_lt_zero j)), one_mul]
  rfl

/-- C1: for every square n×n matrix A, `Determinant(A)` returns, without
error, the mathematical determinant of A — the value computed as sign times
the product of the diagonal after partial-pivoting Gaussian elimination,
with the sign starting at +1 and flipping on each row swap. -/
theorem determinant_matches_math_det (A : S21.Matrix) (n : ℕ)
    (hr : A.rows = n) (hc : A.cols = n) :
    S21.Determinant A = Except.ok ((toMat A n).det) :=
  determinant_ok A n hr hc

/-- Witness for C1 at the §8 row-swap scenario: `Determinant([[0,1],[1,0]])`
is -1 (one pivot swap flips the sign). -/
theorem determinant_matches_math_det_witness :
    S21.Determinant (S21.ofLists [[0, 1], [1, 0]]) = Except.ok (-1) := by
  rw [determinant_matches_math_det (S21.ofLists [[0, 1], [1, 0]]) 2 rfl rfl]
  congr 1
  have h : toMat (S21.ofLists [[0, 1], [1, 0]]) 2 = !![0, 1; 1, 0] := by
    ext i j
    fin_cases i <;> fin_cases j <;> rfl
  rw [h, Matrix.det_fin_two]
  norm_num

/-- C2: on every square matrix whose pivot search meets an entirely zero
pivot column — in particular one with a zero row or a zero column, and
exactly those square matrices with vanishing mathematical determinant —
`Determinant` returns the value 0 normally, raising no error. -/
theorem determinant_singular_returns_zero (A : S21.Matrix) (n : ℕ)
    (hr : A.rows = n) (hc : A.cols = n)
    (h : (∃ i, i < n ∧ ∀ j, j < n → A.entry i j = 0) ∨
         (∃ j, j < n ∧ ∀ i, i < n → A.entry i j = 0) ∨
         (toMat A n).det = 0) :
    S21.Determinant A = Except.ok 0 := by
  rw [determinant_ok A n hr hc]
  congr 1
  rcases h with ⟨i, hin, hrow⟩ | ⟨j, hjn, hcol⟩ | hdet
  · exact Matrix.det_eq_zero_of_row_eq_zero ⟨i, hin⟩ (fun j => hrow j j.isLt)
  · exact Matrix.det_eq_zero_of_column_eq_zero ⟨j, hjn⟩ (fun i => hcol i i.isLt)
  · exact hdet

/-- Witness for C2: a 3×3 matrix with a zero row has determinant ok 0. -/
theorem determinant_singular_returns_zero_witness :
    S21.Determinant (S21.ofLists [[1, 2, 3], [0, 0, 0], [7, 8, 9]]) = Except.ok 0 := by
  apply determinant_singular_returns_zero (S21.ofLists [[1, 2, 3], [0, 0, 0], [7, 8, 9]]) 3 rfl rfl
  refine Or.inl ⟨1, by norm_num, ?_⟩
  intro j hj
  interval_cases j <;> rfl

lemma detLoopSt_fst (n : ℕ) : ∀ (fuel k : ℕ) (st : S21.DetState),
    (S21.detLoopSt n fuel k st).1 = S21.detLoop n fuel k st.work st.sgn := by
  intro fuel
  induction fuel with
  | zero => intro k st; rfl
  | succ fuel ih =>
      intro k st
      by_cases hz : S21.rowSwap st.work k (S21.pivotRow st.work n k) k k = 0
      · simp only [S21.detLoopSt, S21.detLoop, if_pos hz]
      · simp only [S21.detLoopSt, S21.detLoop, if_neg hz]
        exact ih (k + 1) _

lemma detLoopSt_recv (n : ℕ) : ∀ (fuel k : ℕ) (st : S21.DetState),
    (S21.detLoopSt n fuel k st).2.recv = st.recv := by
  intro fuel
  induction fuel with
  | zero => intro k st; rfl
  | succ fuel ih =>
      intro k st
      by_cases hz : S21.rowSwap st.work k (S21.pivotRow st.work n k) k k = 0
      · simp only [S21.detLoopSt, if_pos hz]
      · simp only [S21.detLoopSt, if_neg hz]
        exact ih (k + 1) _

/-- C6: a `Determinant()` call leaves the receiver exactly as it was — the
stateful model of the method returns the pair of the functional result and
the untouched receiver, since the elimination runs only on the disposable
working copy. -/
theorem determinant_preserves_receiver (A : S21.Matrix) :
    S21.DeterminantM A = (S21.Determinant A, A) := by
  unfold S21.DeterminantM S21.Determinant
  by_cases h : A.rows = A.cols
  · rw [if_pos h, if_pos h, detLoopSt_fst A.rows A.rows 0 ⟨A, A.entry, 1⟩,
      detLoopSt_recv A.rows A.rows 0 ⟨A, A.entry, 1⟩]
  · rw [if_neg h, if_neg h]

/-- C7: on shape mismatch, the in-place addition and subtraction operations
report `ShapeMismatch` and leave the receiver unchanged — validation
happens before any mutation. -/
theorem sum_sub_shape_mismatch (A B : S21.Matrix)
    (h : A.rows ≠ B.rows ∨ A.cols ≠ B.cols) :
    S21.SumMatrix A B = (some S21.MatrixError.ShapeMismatch, A) ∧
    S21.SubMatrix A B = (some S21.MatrixError.ShapeMismatch, A) ∧
    S21.opAddAssign A B = (some S21.MatrixError.ShapeMismatch, A) := by
  have hcond : ¬(A.rows = B.rows ∧ A.cols = B.cols) := by tauto
  unfold S21.opAddAssign S21.SumMatrix S21.SubMatrix
  simp only [if_neg hcond]
  exact ⟨trivial, trivial, trivial⟩

/-- Witness for C7 at the §8 scenario: a 2×3 and a 3×2 matrix. -/
theorem sum_sub_shape_mismatch_witness :
    S21.SumMatrix (S21.ofLists [[1, 2, 3], [4, 5, 6]]) (S21.ofLists [[1, 2], [3, 4], [5, 6]]) =
      (some S21.MatrixError.ShapeMismatch, S21.ofLists [[1, 2, 3], [4, 5, 6]]) ∧
    S21.SubMatrix (S21.ofLists [[1, 2, 3], [4, 5, 6]]) (S21.ofLists [[1, 2], [3, 4], [5, 6]]) =
      (some S21.MatrixError.ShapeMismatch, S21.ofLists [[1, 2, 3], [4, 5, 6]]) ∧
    S21.opAddAssign (S21.ofLists [[1, 2, 3], [4, 5, 6]]) (S21.ofLists [[1, 2], [3, 4], [5, 6]]) =
      (some S21.MatrixError.ShapeMismatch, S21.ofLists [[1, 2, 3], [4, 5, 6]]) :=
  sum_sub_shape_mismatch _ _ (Or.inl (by decide))

/-- C8: equality comparison never fails (it is a total Boolean function): it
is false whenever the shapes differ, and on equal shapes it is true exactly
when every element pair is within absolute tolerance 1e-7. -/
theorem eqMatrix_spec (A B : S21.Matrix) :
    (A.rows ≠ B.rows ∨ A.cols ≠ B.cols → S21.EqMatrix A B = false) ∧
    (A.rows = B.rows → A.cols = B.cols →
      (S21.EqMatrix A B = true ↔
        ∀ i j, i < A.rows → j < A.cols → |A.entry i j - B.entry i j| < S21.tol)) := by
  constructor
  · intro h
    unfold S21.EqMatrix
    rw [if_neg (by tauto)]
  · intro hr hc
    unfold S21.EqMatrix
    rw [if_pos ⟨hr, hc⟩, List.all_eq_true]
    constructor
    · intro h i j hi hj
      have h1 := h i (List.mem_range.mpr hi)
      rw [List.all_eq_true] at h1
      have h2 := h1 j (List.mem_range.mpr hj)
      rw [decide_eq_true_eq, qabs_eq_abs] at h2
      exact h2
    · intro h i hi
      rw [List.all_eq_true]
      intro j hj
      rw [decide_eq_true_eq, qabs_eq_abs]
      exact h i j (List.mem_range.mp hi) (List.mem_range.mp hj)

/-- Witness for C8: a shape mismatch compares false, and equal matrices
compare true. -/
theorem eqMatrix_spec_witness :
    S21.EqMatrix (S21.ofLists [[1, 2, 3], [4, 5, 6]]) (S21.ofLists [[1, 2], [3, 4], [5, 6]]) = false ∧
    S21.EqMatrix (S21.ofLists [[1, 2], [3, 4]]) (S21.ofLists [[1, 2], [3, 4]]) = true := by
  constructor
  · exact (eqMatrix_spec _ _).1 (Or.inl (by decide))
  · apply ((eqMatrix_spec _ _).2 rfl rfl).mpr
    intro i j hi hj
    rw [sub_self, abs_zero]
    norm_num [S21.tol]

/-- C9: `Transpose` returns a new `cols × rows` matrix holding
`result[j][i] = a[i][j]`, and on every square matrix of size at least 2 the
double transpose equals the original within tolerance 1e-7. -/
theorem transpose_spec (A : S21.Matrix) :
    (S21.Transpose A).rows = A.cols ∧ (S21.Transpose A).cols = A.rows ∧
    (∀ i j, i < A.rows → j < A.cols → (S21.Transpose A).entry j i = A.entry i j) ∧
    (A.rows = A.cols → 2 ≤ A.rows →
      S21.EqMatrix A (S21.Transpose (S21.Transpose A)) = true) := by
  refine ⟨rfl, rfl, fun i j hi hj => rfl, ?_⟩
  intro hsq h2
  unfold S21.EqMatrix
  rw [if_pos ⟨rfl, rfl⟩, List.all_eq_true]
  intro i hi
  rw [List.all_eq_true]
  intro j hj
  rw [decide_eq_true_eq, qabs_eq_abs]
  show |A.entry i j - A.entry i j| < S21.tol
  rw [sub_self, abs_zero]
  norm_num [S21.tol]

/-- Witness for C9 at the 3×3 matrix of the §8 cofactor scenario. -/
theorem transpose_spec_witness :
    S21.EqMatrix (S21.ofLists [[2, 5, 7], [6, 3, 4], [5, -2, -3]])
      (S21.Transpose (S21.Transpose (S21.ofLists [[2, 5, 7], [6, 3, 4], [5, -2, -3]]))) = true :=
  (transpose_spec _).2.2.2 rfl (by decide)

/-- C5: minor extraction returns a new `(rows-1) × (cols-1)` matrix equal to
the input with row `rowI` and column `colJ` deleted, the remaining rows and
columns keeping their relative order — stated as deleting the corresponding
index from the row list and from every row. -/
theorem createMinor_deletes_row_col (A : S21.Matrix) (rowI colJ : ℕ)
    (hr : rowI < A.rows) (hc : colJ < A.cols) :
    (S21.CreateMinor A rowI colJ).rows = A.rows - 1 ∧
    (S21.CreateMinor A rowI colJ).cols = A.cols - 1 ∧
    S21.toLists (S21.CreateMinor A rowI colJ) =
      ((S21.toLists A).eraseIdx rowI).map fun r => r.eraseIdx colJ := by
  refine ⟨rfl, rfl, ?_⟩
  unfold S21.toLists
  have hlenA : ((List.range A.rows).map fun i =>
      (List.range A.cols).map fun j => A.entry i j).length = A.rows := by
    simp
  apply List.ext_getElem
  · simp [S21.CreateMinor, List.length_eraseIdx, hlenA, hr]
  · intro r h1 h2
    simp only [List.getElem_map, List.getElem_range, List.getElem_eraseIdx]
    have hrlen : r < A.rows - 1 := by
      simpa [S21.CreateMinor] using h1
    apply List.ext_getElem
    · split <;> simp [S21.CreateMinor, List.length_eraseIdx, hc]
    · intro c g1 g2
      simp only [List.getElem_map, List.getElem_range, List.getElem_eraseIdx]
      have hclen : c < A.cols - 1 := by
        simpa using g1
      show (S21.CreateMinor A rowI colJ).entry r c = _
      unfold S21.CreateMinor
      by_cases h3 : r < rowI
      · by_cases h4 : c < colJ
        · simp [h3, h4]
        · simp [h3, h4]
      · by_cases h4 : c < colJ
        · simp [h3, h4]
        · simp [h3, h4]

lemma succAbove_val (m : ℕ) (p : Fin (m + 1)) (r : Fin m) :
    ((p.succAbove r : Fin (m + 1)) : ℕ) =
      if (r : ℕ) < (p : ℕ) then (r : ℕ) else (r : ℕ) + 1 := by
  rw [Fin.succAbove]
  by_cases h : Fin.castSucc r < p
  · rw [if_pos h, if_pos (by simpa [Fin.lt_def] using h), Fin.coe_castSucc]
  · rw [if_neg h, if_neg (by simpa [Fin.lt_def] using h), Fin.val_succ]

lemma toMat_createMinor (A : S21.Matrix) (m : ℕ) (p q : Fin (m + 1)) :
    toMat (S21.CreateMinor A (p : ℕ) (q : ℕ)) m =
      (toMat A (m + 1)).submatrix p.succAbove q.succAbove := by
  ext r c
  simp only [toMat, matOf, Matrix.of_apply, Matrix.submatrix_apply, S21.CreateMinor]
  rw [succAbove_val m p r, succAbove_val m q c]

/-- The cofactor matrix that `CalcComplements` wraps in `Except.ok` on a
valid receiver; named so the inversion proofs can speak about its entries. -/
def cof (A : S21.Matrix) : S21.Matrix :=
  ⟨A.rows, A.cols, fun i j =>
    match S21.Determinant (S21.CreateMinor A i j) with
    | Except.ok d => (-1 : ℚ) ^ (i + j) * d
    | Except.error _ => 0⟩

lemma calcComplements_eq (A : S21.Matrix) (hsq : A.rows = A.cols) (h2 : 2 ≤ A.rows) :
    S21.CalcComplements A = Except.ok (cof A) := by
  unfold S21.CalcComplements cof
  rw [if_pos ⟨hsq, h2⟩]

lemma cof_entry_eq_adjugate (A : S21.Matrix) (m : ℕ)
    (hr : A.rows = m + 1) (hc : A.cols = m + 1) (j t : ℕ) (hj : j < m + 1) (ht : t < m + 1) :
    (cof A).entry j t = (toMat A (m + 1)).adjugate ⟨t, ht⟩ ⟨j, hj⟩ := by
  have hmr : (S21.CreateMinor A j t).rows = m := by
    show A.rows - 1 = m
    omega
  have hmc : (S21.CreateMinor A j t).cols = m := by
    show A.cols - 1 = m
    omega
  show (match S21.Determinant (S21.CreateMinor A j t) with
    | Except.ok d => (-1 : ℚ) ^ (j + t) * d
    | Except.error _ => 0) = _
  rw [determinant_ok (S21.CreateMinor A j t) m hmr hmc]
  show (-1 : ℚ) ^ (j + t) * (toMat (S21.CreateMinor A j t) m).det = _
  rw [Matrix.adjugate_fin_succ_eq_det_submatrix]
  have hsub : toMat (S21.CreateMinor A j t) m =
      (toMat A (m + 1)).submatrix (Fin.succAbove ⟨j, hj⟩) (Fin.succAbove ⟨t, ht⟩) :=
    toMat_createMinor A m ⟨j, hj⟩ ⟨t, ht⟩
  rw [hsub]

lemma eqMatrix_of_entries (A B : S21.Matrix) (hr : A.rows = B.rows) (hc : A.cols = B.cols)
    (h : ∀ i j, i < A.rows → j < A.cols → A.entry i j = B.entry i j) :
    S21.EqMatrix A B = true := by
  unfold S21.EqMatrix
  rw [if_pos ⟨hr, hc⟩, List.all_eq_true]
  intro i hi
  rw [List.all_eq_true]
  intro j hj
  rw [decide_eq_true_eq, qabs_eq_abs,
    h i j (List.mem_range.mp hi) (List.mem_range.mp hj), sub_self, abs_zero]
  norm_num [S21.tol]

lemma mul_inv_entry (A : S21.Matrix) (m : ℕ)
    (hr : A.rows = m + 1) (hc : A.cols = m + 1) (hd : (toMat A (m + 1)).det ≠ 0)
    (i j : ℕ) (hi : i < m + 1) (hj : j < m + 1) :
    ((List.range A.cols).map fun t =>
      A.entry i t * ((cof A).entry j t * (1 / (toMat A (m + 1)).det))).sum =
      if i = j then 1 else 0 := by
  rw [list_sum_range, hc, ← Fin.sum_univ_eq_sum_range]
  have hterm : ∀ t : Fin (m + 1),
      A.entry i (t : ℕ) * ((cof A).entry j (t : ℕ) * (1 / (toMat A (m + 1)).det)) =
      toMat A (m + 1) ⟨i, hi⟩ t * (toMat A (m + 1)).adjugate t ⟨j, hj⟩ *
        (1 / (toMat A (m + 1)).det) := by
    intro t
    rw [cof_entry_eq_adjugate A m hr hc j (t : ℕ) hj t.isLt]
    show A.entry i (t : ℕ) * ((toMat A (m + 1)).adjugate ⟨(t : ℕ), t.isLt⟩ ⟨j, hj⟩ *
      (1 / (toMat A (m + 1)).det)) = _
    rw [← mul_assoc]
    rfl
  rw [Fintype.sum_congr _ _ hterm, ← Finset.sum_mul, ← Matrix.mul_apply,
    Matrix.mul_adjugate]
  simp only [Matrix.smul_apply, Matrix.one_apply, smul_eq_mul]
  by_cases hij : i = j
  · subst hij
    rw [if_pos rfl, if_pos rfl, mul_one, mul_one_div, div_self hd]
  · rw [if_neg (by intro hcon; exact hij (congrArg Fin.val hcon)), if_neg hij]
    ring

/-- C3, amended to square matrices of size at least 2 (on a 1×1 matrix the
cofactor step has no minors and the call fails before producing a result):
`InverseMatrix` fails with `SingularMatrix` exactly when `Determinant`
returns 0; otherwise it returns `Transpose(CalcComplements(A))` with every
element scaled by the determinant reciprocal, and the product of A with
that result equals the identity within tolerance 1e-7. -/
theorem inverseMatrix_spec (A : S21.Matrix) (n : ℕ)
    (hr : A.rows = n) (hc : A.cols = n) (h2 : 2 ≤ n) :
    ∃ d, S21.Determinant A = Except.ok d ∧
      (d = 0 → S21.InverseMatrix A = Except.error S21.MatrixError.SingularMatrix) ∧
      (d ≠ 0 → ∃ C P,
        S21.CalcComplements A = Except.ok C ∧
        S21.InverseMatrix A = Except.ok (S21.ScaleBy (S21.Transpose C) (1 / d)) ∧
        S21.MulMatrix A (S21.ScaleBy (S21.Transpose C) (1 / d)) = Except.ok P ∧
        S21.EqMatrix P (S21.identity n) = true) := by
  have hsq : A.rows = A.cols := hr.trans hc.symm
  have hd := determinant_ok A n hr hc
  refine ⟨(toMat A n).det, hd, ?_, ?_⟩
  · intro h0
    unfold S21.InverseMatrix
    rw [if_pos hsq, hd]
    show (if (toMat A n).det = 0 then Except.error S21.MatrixError.SingularMatrix
      else match S21.CalcComplements A with
        | Except.ok C => Except.ok (S21.ScaleBy (S21.Transpose C) (1 / (toMat A n).det))
        | Except.error e => Except.error e) = Except.error S21.MatrixError.SingularMatrix
    rw [if_pos h0]
  · intro h0
    have hCC := calcComplements_eq A hsq (by omega)
    refine ⟨cof A,
      ⟨A.rows, (S21.ScaleBy (S21.Transpose (cof A)) (1 / (toMat A n).det)).cols, fun i j =>
        ((List.range A.cols).map fun t =>
          A.entry i t *
            (S21.ScaleBy (S21.Transpose (cof A)) (1 / (toMat A n).det)).entry t j).sum⟩,
      hCC, ?_, ?_, ?_⟩
    · unfold S21.InverseMatrix
      rw [if_pos hsq, hd]
      show (if (toMat A n).det = 0 then Except.error S21.MatrixError.SingularMatrix
        else match S21.CalcComplements A with
          | Except.ok C => Except.ok (S21.ScaleBy (S21.Transpose C) (1 / (toMat A n).det))
          | Except.error e => Except.error e) =
        Except.ok (S21.ScaleBy (S21.Transpose (cof A)) (1 / (toMat A n).det))
      rw [if_neg h0, hCC]
    · unfold S21.MulMatrix
      rw [if_pos (show A.cols =
        (S21.ScaleBy (S21.Transpose (cof A)) (1 / (toMat A n).det)).rows from rfl)]
    · apply eqMatrix_of_entries
      · exact hr
      · exact hr
      · intro i j hi hj
        replace hi : i < A.rows := hi
        replace hj : j < A.rows := hj
        obtain ⟨m, hm⟩ : ∃ m, n = m + 1 := ⟨n - 1, by omega⟩
        subst hm
        show ((List.range A.cols).map fun t =>
          A.entry i t * ((cof A).entry j t * (1 / (toMat A (m + 1)).det))).sum =
          (S21.identity (m + 1)).entry i j
        rw [mul_inv_entry A m hr hc h0 i j (by omega) (by omega)]
        rfl

/-- Counterexample to C3 as stated: the 1×1 matrix [[2]] is square and has
nonzero determinant (ok 2), yet `InverseMatrix` does not return the scaled
transposed cofactor matrix — it fails, with the shape error raised by the
`rows ≥ 2` precondition of `CalcComplements`. -/
theorem inverseMatrix_claim_fails_at_one_by_one :
    S21.Determinant (S21.ofLists [[2]]) = Except.ok 2 ∧
    S21.InverseMatrix (S21.ofLists [[2]]) = Except.error S21.MatrixError.InvalidShape := by
  constructor
  · norm_num [S21.Determinant, S21.detLoop, S21.pivotRow, S21.pivotAux, S21.rowSwap,
      S21.eliminate, S21.qabs, S21.ofLists, List.range_succ, List.range']
  · norm_num [S21.InverseMatrix, S21.CalcComplements, S21.Determinant, S21.detLoop,
      S21.pivotRow, S21.pivotAux, S21.rowSwap, S21.eliminate, S21.qabs, S21.ofLists,
      List.range_succ, List.range']

/-- Witness for the amended C3 at the §8 scenario [[1,2],[3,4]], whose
determinant is -2: the inverse is produced and multiplies back to the
identity within tolerance. -/
theorem inverseMatrix_spec_witness :
    ∃ C P, S21.CalcComplements (S21.ofLists [[1, 2], [3, 4]]) = Except.ok C ∧
      S21.InverseMatrix (S21.ofLists [[1, 2], [3, 4]]) =
        Except.ok (S21.ScaleBy (S21.Transpose C) (1 / (-2 : ℚ))) ∧
      S21.MulMatrix (S21.ofLists [[1, 2], [3, 4]])
        (S21.ScaleBy (S21.Transpose C) (1 / (-2 : ℚ))) = Except.ok P ∧
      S21.EqMatrix P (S21.identity 2) = true := by
  obtain ⟨d, hd, hsing, hok⟩ :=
    inverseMatrix_spec (S21.ofLists [[1, 2], [3, 4]]) 2 rfl rfl (by norm_num)
  have hdval : S21.Determinant (S21.ofLists [[1, 2], [3, 4]]) = Except.ok (-2 : ℚ) := by
    norm_num [S21.Determinant, S21.detLoop, S21.pivotRow, S21.pivotAux, S21.rowSwap,
      S21.eliminate, S21.qabs, S21.ofLists, List.range_succ, List.range']
  have hd2 : d = -2 := by
    rw [hd] at hdval
    exact Except.ok.inj hdval
  subst hd2
  exact hok (by norm_num)

/-- C4: on every square matrix with rows ≥ 2, `CalcComplements` returns a
matrix of the same shape whose (i,j) entry is (-1)^(i+j) times the
mathematical determinant of the minor of the input at (i,j); on a 1×1
matrix and on any non-square matrix it fails rather than returning a
result. -/
theorem calcComplements_cofactors (A : S21.Matrix) (n : ℕ) :
    ((A.rows = n ∧ A.cols = n ∧ 2 ≤ n) →
      ∃ C, S21.CalcComplements A = Except.ok C ∧ C.rows = n ∧ C.cols = n ∧
        ∀ i j, i < n → j < n →
          C.entry i j =
            (-1 : ℚ) ^ (i + j) * (toMat (S21.CreateMinor A i j) (n - 1)).det) ∧
    ((A.rows ≠ A.cols ∨ (A.rows = 1 ∧ A.cols = 1)) →
      ∃ e, S21.CalcComplements A = Except.error e) := by
  constructor
  · rintro ⟨hr, hc, h2⟩
    refine ⟨cof A, calcComplements_eq A (hr.trans hc.symm) (by omega), hr, hc, ?_⟩
    intro i j hi hj
    show (match S21.Determinant (S21.CreateMinor A i j) with
      | Except.ok d => (-1 : ℚ) ^ (i + j) * d
      | Except.error _ => 0) = _
    rw [determinant_ok (S21.CreateMinor A i j) (n - 1)
      (by show A.rows - 1 = n - 1; omega) (by show A.cols - 1 = n - 1; omega)]
  · intro h
    unfold S21.CalcComplements
    rw [if_neg ?_]
    · exact ⟨_, rfl⟩
    · intro hcon
      rcases h with h | ⟨h1, h2⟩
      · exact h hcon.1
      · omega

/-- Witness for C4: the §8 cofactor scenario — the (0,0) cofactor of
[[2,5,7],[6,3,4],[5,-2,-3]] is 3·(-3) - 4·(-2) = -1 — and the 1×1 failure
case. -/
theorem calcComplements_cofactors_witness :
    (∃ C, S21.CalcComplements (S21.ofLists [[2, 5, 7], [6, 3, 4], [5, -2, -3]]) =
        Except.ok C ∧ C.entry 0 0 = -1) ∧
    (∃ e, S21.CalcComplements (S21.ofLists [[5]]) = Except.error e) := by
  constructor
  · obtain ⟨C, hC, hrows, hcols, hent⟩ :=
      (calcComplements_cofactors (S21.ofLists [[2, 5, 7], [6, 3, 4], [5, -2, -3]]) 3).1
        ⟨rfl, rfl, by norm_num⟩
    refine ⟨C, hC, ?_⟩
    rw [hent 0 0 (by norm_num) (by norm_num)]
    have h : toMat (S21.CreateMinor (S21.ofLists [[2, 5, 7], [6, 3, 4], [5, -2, -3]]) 0 0) 2 =
        !![3, 4; -2, -3] := by
      ext i j
      fin_cases i <;> fin_cases j <;> rfl
    rw [h, Matrix.det_fin_two]
    norm_num
  · exact (calcComplements_cofactors (S21.ofLists [[5]]) 1).2 (Or.inr ⟨rfl, rfl⟩)

/-- Witness for C5: deleting row 1 and column 1 of the §8 3×3 matrix. -/
theorem createMinor_deletes_row_col_witness :
    (S21.CreateMinor (S21.ofLists [[2, 5, 7], [6, 3, 4], [5, -2, -3]]) 1 1).rows = 2 ∧
    (S21.CreateMinor (S21.ofLists [[2, 5, 7], [6, 3, 4], [5, -2, -3]]) 1 1).cols = 2 ∧
    S21.toLists (S21.CreateMinor (S21.ofLists [[2, 5, 7], [6, 3, 4], [5, -2, -3]]) 1 1) =
      ((S21.toLists (S21.ofLists [[2, 5, 7], [6, 3, 4], [5, -2, -3]])).eraseIdx 1).map
        fun r => r.eraseIdx 1 :=
  createMinor_deletes_row_col _ 1 1 (by decide) (by decide)
